import Mathlib

/-!
Verification of the RSA accumulator engine (src/rsa.rs of rust-accumulators).

The accumulator state and its operations are embedded as executable Lean
functions over Nat (big unsigned integers) and Int (big signed integers).
Rust `a.modpow(e, n)` becomes `a ^ e % n`; fallible calls (`expect`,
`unwrap`) become Option, with `none` standing for a panic.

The number-theory utilities (extended_gcd, mod_inverse, modpow_uint_int,
shamir_trick) and the proof systems (NI-PoE, NI-PoKE2) live in modules of
the repository that are not part of the provided sources; they are modelled
from the specification (sections 4.1 to 4.3) and marked as such below.
-/

namespace RsaAcc

/-- Euclidean extended GCD with a structural fuel argument so that the
kernel can evaluate it; the fuel is always strictly larger than the first
argument. -/
def egcdF : Nat → Nat → Nat → Nat × Int × Int
  | 0, _, b => (b, 0, 1)
  | fuel + 1, a, b =>
    if a = 0 then (b, 0, 1)
    else
      let p := egcdF fuel (b % a) a
      (p.1, p.2.2 - ((b / a : Nat) : Int) * p.2.1, p.2.1)

/-- Modelled from the spec: extended GCD (math module, not under src/).
Given unsigned a b, returns (gcd, x, y) with gcd unsigned, x y signed,
satisfying x * a + y * b = gcd. -/
def extended_gcd (a b : Nat) : Nat × Int × Int :=
  egcdF (a + 1) a b

/-- Modelled from the spec: modular inverse (math module, not under src/).
Returns the inverse of a modulo m when gcd(a, m) = 1; fails otherwise. -/
def mod_inverse (a m : Nat) : Option Nat :=
  if (extended_gcd a m).1 = 1 then some (((extended_gcd a m).2.1 % (m : Int)).toNat)
  else none

/-- Modelled from the spec: signed-exponent modular exponentiation
(math module, not under src/). For e below zero: compute base ^ (-e) mod m,
then invert modulo m; fails when the base is not invertible. -/
def modpow_uint_int (base : Nat) (e : Int) (m : Nat) : Option Nat :=
  if 0 ≤ e then some (base ^ e.toNat % m)
  else mod_inverse (base ^ e.natAbs % m) m

/-- Modelled from the spec: Shamir trick (math module, not under src/).
With (1, al, be) = ExtGCD(x, y), returns w_x ^ be * w_y ^ al mod n using
signed-exponent modpow; fails when gcd(x, y) is not 1. -/
def shamir_trick (w_x w_y x y n : Nat) : Option Nat :=
  if (extended_gcd x y).1 = 1 then
    match modpow_uint_int w_x (extended_gcd x y).2.2 n,
          modpow_uint_int w_y (extended_gcd x y).2.1 n with
    | some l, some r => some (l * r % n)
    | _, _ => none
  else none

/-- Modelled from the spec: the Fiat-Shamir challenge derivation H_prime is
an external hash resolved to a prime; it is kept as a parameter, one field
per transcript shape used by the proof systems. -/
structure HashPrime where
  poe : Nat → Nat → Nat → Nat
  poke2l : Nat → Nat → Nat → Nat
  poke2a : Nat → Nat → Nat → Nat → Nat

/-- Modelled from the spec: NI-PoE prover (proofs module, not under src/).
Derives l = H_prime(x, u, w) and returns Q = u ^ (x / l) mod n. -/
def ni_poe_prove (h : HashPrime) (x u w n : Nat) : Nat :=
  u ^ (x / h.poe x u w) % n

/-- Modelled from the spec: NI-PoE verifier (proofs module, not under src/).
Derives the same l, sets r = x mod l, accepts iff Q^l * u^r = w (mod n). -/
def ni_poe_verify (h : HashPrime) (x u w q n : Nat) : Bool :=
  ((q ^ h.poe x u w % n) * (u ^ (x % h.poe x u w) % n)) % n == w

/-- Modelled from the spec: NI-PoKE2 verifier (proofs module, not under
src/). The proof is (z, Q, r) with r signed; the verifier recomputes
l and alpha from the transcript and accepts iff 0 ≤ r < l and
Q^l * (u * g^alpha)^r = w * z^alpha (mod n). The base g (the spec reuses
the accumulator generator) is passed explicitly. -/
def ni_poke2_verify (h : HashPrime) (g u w : Nat) (pi : Nat × Nat × Int)
    (n : Nat) : Bool :=
  let z := pi.1
  let q := pi.2.1
  let r := pi.2.2
  let l := h.poke2l u w z
  let al := h.poke2a u w z l
  if 0 ≤ r ∧ r < (l : Int) then
    ((q ^ l % n) * ((u * (g ^ al % n) % n) ^ r.toNat % n)) % n
      == (w * (z ^ al % n)) % n
  else false

/-- The accumulator state of src/rsa.rs: generator g, modulus n = p * q,
current digest a_t, and the running product s of accumulated elements.
The security parameter field lambda is carried by the Rust struct but is
never read by the embedded operations, so it is omitted. -/
structure RsaAccumulator where
  g : Nat
  n : Nat
  a_t : Nat
  s : Nat
deriving DecidableEq

/-- The digest invariant of the spec: A = g ^ s mod n. -/
abbrev Invariant (st : RsaAccumulator) : Prop :=
  st.a_t = st.g ^ st.s % st.n

/-- src/rsa.rs add: s ← s * x, A ← A ^ x mod n. -/
def add (st : RsaAccumulator) (x : Nat) : RsaAccumulator :=
  { st with s := st.s * x, a_t := st.a_t ^ x % st.n }

/-- src/rsa.rs mem_wit_create: w = g ^ (s / x) mod n (the code divides s
by x with div_rem and only debug-asserts that the remainder is zero). -/
def mem_wit_create (st : RsaAccumulator) (x : Nat) : Nat :=
  st.g ^ (st.s / x) % st.n

/-- src/rsa.rs ver_mem: w ^ x mod n == A. -/
def ver_mem (st : RsaAccumulator) (w x : Nat) : Bool :=
  w ^ x % st.n == st.a_t

/-- src/rsa.rs del: s ← s / x (truncating division); if s is unchanged
return None, else recompute A = g ^ s mod n and return the new state. -/
def del (st : RsaAccumulator) (x : Nat) : Option RsaAccumulator :=
  let s2 := st.s / x
  if s2 = st.s then none
  else some { st with s := s2, a_t := st.g ^ s2 % st.n }

/-- src/rsa.rs non_mem_wit_create: (_, a, b) = extended_gcd(x, s);
d = g ^ a mod n (signed exponent, may fail); returns (d, b). -/
def non_mem_wit_create (st : RsaAccumulator) (x : Nat) : Option (Nat × Int) :=
  match modpow_uint_int st.g (extended_gcd x st.s).2.1 st.n with
  | none => none
  | some d => some (d, (extended_gcd x st.s).2.2)

/-- src/rsa.rs ver_non_mem: accepts (d, b) iff d^x * A^b == g (mod n);
the signed power A^b may fail (Rust expect). -/
def ver_non_mem (st : RsaAccumulator) (w : Nat × Int) (x : Nat) : Option Bool :=
  match modpow_uint_int st.a_t w.2 st.n with
  | none => none
  | some ab => some (((w.1 ^ x % st.n) * ab) % st.n == st.g)

/-- src/rsa.rs batch_add: one loop multiplies both x_star and s by every
element; then A ← A ^ x_star mod n and the NI-PoE for
(x_star, A_pre, A_new) is returned together with the new state. -/
def batch_add (h : HashPrime) (st : RsaAccumulator) (xs : List Nat) :
    RsaAccumulator × Nat :=
  let x_star := xs.foldl (fun a x => a * x) 1
  let s2 := xs.foldl (fun a x => a * x) st.s
  let a_new := st.a_t ^ x_star % st.n
  ({ st with s := s2, a_t := a_new },
   ni_poe_prove h x_star st.a_t a_new st.n)

/-- src/rsa.rs ver_batch_add: recompute x_star and verify the NI-PoE
(x_star, a_pre, A_current, w). -/
def ver_batch_add (h : HashPrime) (st : RsaAccumulator) (w a_pre : Nat)
    (xs : List Nat) : Bool :=
  ni_poe_verify h (xs.foldl (fun a x => a * x) 1) a_pre st.a_t w st.n

/-- src/rsa.rs batch_del: None on empty input; otherwise start from the
first pair (x0, w0) and fold the rest with the Shamir trick, multiplying
x_star by each later x_i and dividing s by each later x_i (the first x0 is
never divided out of s); finally A ← the folded witness and the NI-PoE for
(x_star, A_new, A_pre) is returned. A failing Shamir trick (Rust unwrap)
is none. -/
def batch_del (h : HashPrime) (st : RsaAccumulator)
    (pairs : List (Nat × Nat)) : Option (RsaAccumulator × Nat) :=
  match pairs with
  | [] => none
  | (x0, w0) :: rest =>
    let step := fun (acc : Option (Nat × Nat × Nat)) (p : Nat × Nat) =>
      match acc with
      | none => none
      | some (x_star, na, s) =>
        match shamir_trick na p.2 x_star p.1 st.n with
        | none => none
        | some na2 => some (x_star * p.1, na2, s / p.1)
    match rest.foldl step (some (x0, w0, st.s)) with
    | none => none
    | some (x_star, na, s2) =>
      some ({ st with s := s2, a_t := na },
            ni_poe_prove h x_star na st.a_t st.n)

/-- src/rsa.rs ver_batch_del: recompute x_star and verify the NI-PoE
(x_star, A_current, a_pre, w). -/
def ver_batch_del (h : HashPrime) (st : RsaAccumulator) (w a_pre : Nat)
    (xs : List Nat) : Bool :=
  ni_poe_verify h (xs.foldl (fun a x => a * x) 1) st.a_t a_pre w st.n

/-- src/rsa.rs del_w_mem: None when ver_mem(w, x) fails, leaving the state
unchanged; otherwise s ← s / x, A ← w. -/
def del_w_mem (st : RsaAccumulator) (w x : Nat) : Option RsaAccumulator :=
  if ver_mem st w x then some { st with s := st.s / x, a_t := w }
  else none

/-- src/rsa.rs ver_agg_mem_wit: verify the NI-PoE (x * y, w_xy, A, pi). -/
def ver_agg_mem_wit (h : HashPrime) (st : RsaAccumulator)
    (w_xy pi x y : Nat) : Bool :=
  ni_poe_verify h (x * y) w_xy st.a_t pi st.n

/-- src/rsa.rs ver_mem_star: verify the NI-PoE (x, w, A, pi). -/
def ver_mem_star (h : HashPrime) (st : RsaAccumulator) (x : Nat)
    (pi : Nat × Nat) : Bool :=
  ni_poe_verify h x pi.1 st.a_t pi.2 st.n

/-- src/rsa.rs mem_wit_x: the combined witness (w_x * w_y) mod n (the
other accumulator digest and the elements are ignored by the code). -/
def mem_wit_x (st : RsaAccumulator) (w_x w_y : Nat) : Nat :=
  w_x * w_y % st.n

/-- src/rsa.rs ver_mem_x: reject unless extended_gcd(x, y).0 = 1, then
accept iff pi ^ (x * y) == A ^ y * other ^ x (mod n). -/
def ver_mem_x (st : RsaAccumulator) (other pi x y : Nat) : Bool :=
  if (extended_gcd x y).1 = 1 then
    pi ^ (x * y) % st.n == ((st.a_t ^ y % st.n) * (other ^ x % st.n)) % st.n
  else false

/-- src/rsa.rs ver_non_mem_star: verify the NI-PoKE2 for (A, v) and, if it
passes, compute k = g * v⁻¹ mod n (Rust expect on mod_inverse: a
non-invertible v is a panic, embedded as none) and verify the NI-PoE
(x, d, k, pi_g). -/
def ver_non_mem_star (h : HashPrime) (st : RsaAccumulator) (x : Nat)
    (pi : Nat × Nat × (Nat × Nat × Int) × Nat) : Option Bool :=
  let d := pi.1
  let v := pi.2.1
  let pi_d := pi.2.2.1
  let pi_g := pi.2.2.2
  if ni_poke2_verify h st.g st.a_t v pi_d st.n then
    match mod_inverse v st.n with
    | none => none
    | some vinv => some (ni_poe_verify h x d (st.g * vinv % st.n) pi_g st.n)
  else some false

/-- A concrete Fiat-Shamir instance: every challenge is the prime 2. Used
to evaluate the engine at concrete inputs; the state-update bugs shown
below do not depend on the hash at all. -/
def hc : HashPrime := ⟨fun _ _ _ => 2, fun _ _ _ => 2, fun _ _ _ _ => 2⟩

/-- The fuel-based extended GCD computes the GCD together with a Bezout
pair, provided the fuel dominates the first argument. -/
theorem egcdF_gcd_bezout : ∀ fuel a b : Nat, a < fuel →
    (egcdF fuel a b).1 = Nat.gcd a b ∧
    (egcdF fuel a b).2.1 * a + (egcdF fuel a b).2.2 * b = (Nat.gcd a b : Int) := by
  intro fuel
  induction fuel with
  | zero => intro a b h; exact absurd h (Nat.not_lt_zero a)
  | succ f ih =>
    intro a b h
    by_cases ha : a = 0
    · subst ha
      simp [egcdF]
    · have hr : b % a < f :=
        lt_of_lt_of_le (Nat.mod_lt b (Nat.pos_of_ne_zero ha)) (by omega)
      have IH := ih (b % a) a hr
      have h0 : (a : Int) * ((b / a : Nat) : Int) + ((b % a : Nat) : Int) = (b : Int) := by
        exact_mod_cast Nat.div_add_mod b a
      rw [Nat.gcd_rec a b]
      constructor
      · simp only [egcdF, ha, if_false]
        exact IH.1
      · simp only [egcdF, ha, if_false]
        linear_combination IH.2 - (egcdF f (b % a) a).2.1 * h0

/-- The first component of extended_gcd is the GCD. -/
theorem extended_gcd_fst (a b : Nat) : (extended_gcd a b).1 = Nat.gcd a b :=
  (egcdF_gcd_bezout (a + 1) a b (Nat.lt_succ_self a)).1

/-- The last two components of extended_gcd form a Bezout pair. -/
theorem extended_gcd_bezout (a b : Nat) :
    (extended_gcd a b).2.1 * a + (extended_gcd a b).2.2 * b = (Nat.gcd a b : Int) :=
  (egcdF_gcd_bezout (a + 1) a b (Nat.lt_succ_self a)).2

/-- Iterated power modulo n: reducing the base first changes nothing. -/
theorem pow_mod_pow (g a b n : Nat) : (g ^ a % n) ^ b % n = g ^ (a * b) % n := by
  rw [← Nat.pow_mod, ← pow_mul]

/-- Product of two reduced powers modulo n adds the exponents. -/
theorem mul_pow_mod (u a b n : Nat) :
    ((u ^ a % n) * (u ^ b % n)) % n = u ^ (a + b) % n := by
  rw [← Nat.mul_mod, ← pow_add]

/-- NI-PoE completeness: the honest proof for u ^ x mod n verifies, for
any challenge derivation. -/
theorem ni_poe_complete (h : HashPrime) (x u n : Nat) :
    ni_poe_verify h x u (u ^ x % n) (ni_poe_prove h x u (u ^ x % n) n) n = true := by
  unfold ni_poe_verify ni_poe_prove
  simp only [beq_iff_eq]
  rw [pow_mod_pow, mul_pow_mod]
  have hx : x / h.poe x u (u ^ x % n) * h.poe x u (u ^ x % n)
      + x % h.poe x u (u ^ x % n) = x := by
    rw [mul_comm]
    exact Nat.div_add_mod x (h.poe x u (u ^ x % n))
  rw [hx]

/-- Folding multiplication from an arbitrary start factors the start out. -/
theorem foldl_mul_from (xs : List Nat) (a : Nat) :
    xs.foldl (fun b x => b * x) a = a * xs.foldl (fun b x => b * x) 1 := by
  induction xs generalizing a with
  | nil => simp
  | cons y ys ih =>
    simp only [List.foldl_cons]
    rw [ih (a * y), ih (1 * y), one_mul, mul_assoc]

/-- C1: the digest invariant does NOT survive batch_del. In the reachable
state (g = 4, n = 77, A = 16, s = 2) (setup with modulus 77 and quadratic
residue generator 4, then add(2)), the pair (2, 4) is a valid membership
witness pair, yet after batch_del([(2, 4)]) the state has A = 4 and s = 2,
and 4 ≠ 4 ^ 2 % 77 = 16: the code never divides s by the first element of
the batch, so A = g ^ s mod n fails. -/
theorem batch_del_breaks_invariant :
    add ⟨4, 77, 4, 1⟩ 2 = ⟨4, 77, 16, 2⟩ ∧
    Invariant ⟨4, 77, 16, 2⟩ ∧
    ver_mem ⟨4, 77, 16, 2⟩ 4 2 = true ∧
    batch_del hc ⟨4, 77, 16, 2⟩ [(2, 4)] = some (⟨4, 77, 4, 2⟩, 4) ∧
    ¬ Invariant ⟨4, 77, 4, 2⟩ := by
  refine ⟨by decide, by decide, by decide, by decide, by decide⟩

/-- C2: del on a non-member mutates the state and reports success. In the
reachable state (g = 4, n = 77, A = 15, s = 6) (setup, add(2), add(3)),
the prime 5 is not a member (5 does not divide 6), yet del(5) truncates
s to 6 / 5 = 1, recomputes A = 4, and returns success instead of the
absent option with the state unchanged. -/
theorem del_non_member_mutates :
    Invariant ⟨4, 77, 15, 6⟩ ∧
    Nat.Prime 5 ∧ ¬ (5 ∣ (6 : Nat)) ∧
    del ⟨4, 77, 15, 6⟩ 5 = some ⟨4, 77, 4, 1⟩ := by
  refine ⟨by decide, by decide, by decide, by decide⟩

/-- C3: batch_del does not divide s by the full product of the batch. In
the state (g = 4, n = 77, A = 15, s = 6), both (2, 64) and (3, 16) are
valid witness pairs, yet batch_del([(2, 64), (3, 16)]) leaves s = 6 / 3 =
2 (dividing only by the second element) instead of 6 / (2 * 3) = 1, while
A is set to the folded witness 4 as described. -/
theorem batch_del_s_not_divided_by_x1 :
    Invariant ⟨4, 77, 15, 6⟩ ∧
    ver_mem ⟨4, 77, 15, 6⟩ 64 2 = true ∧
    ver_mem ⟨4, 77, 15, 6⟩ 16 3 = true ∧
    batch_del hc ⟨4, 77, 15, 6⟩ [(2, 64), (3, 16)] = some (⟨4, 77, 4, 2⟩, 64) ∧
    (6 : Nat) / (2 * 3) ≠ 2 := by
  refine ⟨by decide, by decide, by decide, by decide, by decide⟩

/-- C7: ver_mem_x accepts exactly when x and y are coprime and
pi ^ (x * y) is congruent to A ^ y * A_other ^ x modulo n; in particular
it returns false whenever gcd(x, y) is not 1. -/
theorem ver_mem_x_spec (st : RsaAccumulator) (other pi x y : Nat) :
    ver_mem_x st other pi x y = true ↔
      (Nat.gcd x y = 1 ∧
        pi ^ (x * y) % st.n = ((st.a_t ^ y % st.n) * (other ^ x % st.n)) % st.n) := by
  by_cases hg : Nat.gcd x y = 1 <;>
    simp [ver_mem_x, extended_gcd_fst, hg]

/-- C8: batch_add multiplies s by the product of the batch, raises the
digest to that product, and returns an NI-PoE that ver_batch_add accepts
against the pre-state digest and the post state. -/
theorem batch_add_correct (h : HashPrime) (st : RsaAccumulator) (xs : List Nat) :
    (batch_add h st xs).1.s = st.s * xs.foldl (fun a x => a * x) 1 ∧
    (batch_add h st xs).1.a_t = st.a_t ^ xs.foldl (fun a x => a * x) 1 % st.n ∧
    ver_batch_add h (batch_add h st xs).1 (batch_add h st xs).2 st.a_t xs = true := by
  refine ⟨foldl_mul_from xs st.s, rfl, ?_⟩
  exact ni_poe_complete h (xs.foldl (fun a x => a * x) 1) st.a_t st.n

/-- C9: del_w_mem returns the absent option and leaves the state alone
when the witness does not verify; when it verifies, it divides s by x and
installs the witness as the new digest. -/
theorem del_w_mem_spec (st : RsaAccumulator) (w x : Nat) :
    (ver_mem st w x = false → del_w_mem st w x = none) ∧
    (ver_mem st w x = true →
      del_w_mem st w x = some { st with s := st.s / x, a_t := w }) := by
  constructor <;> intro hv <;> simp [del_w_mem, hv]

/-- Witness for C9 at a concrete accepting input. -/
theorem del_w_mem_spec_witness :
    ver_mem ⟨4, 77, 16, 2⟩ 4 2 = true ∧
    del_w_mem ⟨4, 77, 16, 2⟩ 4 2 = some ⟨4, 77, 4, 1⟩ := by
  refine ⟨by decide, ?_⟩
  rw [(del_w_mem_spec ⟨4, 77, 16, 2⟩ 4 2).2 (by decide)]
  decide

/-- A power of a base coprime to the modulus stays coprime after
reduction. -/
theorem coprime_pow_mod (base k m : Nat) (h : Nat.Coprime base m) :
    Nat.gcd (base ^ k % m) m = 1 := by
  have h1 : Nat.Coprime (base ^ k) m := Nat.Coprime.pow_left k h
  calc Nat.gcd (base ^ k % m) m
      = Nat.gcd m (base ^ k) := (Nat.gcd_rec m (base ^ k)).symm
    _ = Nat.gcd (base ^ k) m := Nat.gcd_comm m (base ^ k)
    _ = 1 := h1

/-- mod_inverse succeeds on inputs coprime to the modulus. -/
theorem mod_inverse_isSome (a m : Nat) (h : Nat.gcd a m = 1) :
    (mod_inverse a m).isSome = true := by
  simp [mod_inverse, extended_gcd_fst, h]

/-- modpow_uint_int succeeds whenever the base is coprime to the
modulus, for every sign of the exponent. -/
theorem modpow_uint_int_isSome (base : Nat) (e : Int) (m : Nat)
    (h : Nat.Coprime base m) : (modpow_uint_int base e m).isSome = true := by
  unfold modpow_uint_int
  by_cases he : 0 ≤ e
  · rw [if_pos he]; rfl
  · rw [if_neg he]
    exact mod_inverse_isSome _ m (coprime_pow_mod base e.natAbs m h)

/-- The degenerate PoKE2 proof (z, Q, r) = (0, 0, 0) for the claimed
value w = 0 passes verification for EVERY challenge derivation whose
outputs are at least 1 (the spec guarantees challenges are primes): both
sides of the verification equation collapse to 0. -/
theorem ni_poke2_verify_zero (h : HashPrime) (g u n : Nat)
    (hl : 1 ≤ h.poke2l u 0 0) (ha : 1 ≤ h.poke2a u 0 0 (h.poke2l u 0 0)) :
    ni_poke2_verify h g u 0 (0, 0, 0) n = true := by
  have hl0 : 0 < h.poke2l u 0 0 := hl
  have ha0 : 0 < h.poke2a u 0 0 (h.poke2l u 0 0) := ha
  show (if 0 ≤ (0 : Int) ∧ (0 : Int) < (h.poke2l u 0 0 : Int) then
      ((0 ^ h.poke2l u 0 0 % n) *
        ((u * (g ^ h.poke2a u 0 0 (h.poke2l u 0 0) % n) % n) ^ Int.toNat 0 % n)) % n
        == (0 * (0 ^ h.poke2a u 0 0 (h.poke2l u 0 0) % n)) % n
    else false) = true
  rw [if_pos ⟨le_refl 0, by exact_mod_cast hl0⟩]
  simp [Nat.zero_pow hl0]

/-- For every challenge derivation with nonzero outputs and every state
with composite-like modulus n above 1, ver_non_mem_star hits the failing
mod_inverse (the Rust expect, a panic) on the tuple (d, 0, (0, 0, 0), q):
the PoKE2 check passes and v = 0 is not invertible. -/
theorem ver_non_mem_star_panics_any (h : HashPrime) (st : RsaAccumulator)
    (x d q : Nat) (hl : 1 ≤ h.poke2l st.a_t 0 0)
    (ha : 1 ≤ h.poke2a st.a_t 0 0 (h.poke2l st.a_t 0 0)) (hn : 1 < st.n) :
    ver_non_mem_star h st x (d, 0, (0, 0, 0), q) = none := by
  unfold ver_non_mem_star
  rw [if_pos (ni_poke2_verify_zero h st.g st.a_t st.n hl ha)]
  have hz : mod_inverse 0 st.n = none := by
    unfold mod_inverse
    rw [extended_gcd_fst, if_neg (by simp [Nat.gcd]; omega)]
  rw [hz]

/-- C4 is refuted at a concrete input: in the state (g = 4, n = 77,
A = 16, s = 2) the verification call ver_non_mem_star(5, (1, 0,
(0, 0, 0), 1)) does not return a boolean; it reaches the Rust
expect("invalid state") on mod_inverse(0, 77) and panics (none), because
the degenerate PoKE2 proof for v = 0 verifies. -/
theorem ver_non_mem_star_panics :
    ver_non_mem_star hc ⟨4, 77, 16, 2⟩ 5 (1, 0, (0, 0, 0), 1) = none := by
  decide

/-- C4 (amended): ver_mem, ver_batch_add, ver_batch_del, ver_agg_mem_wit,
ver_mem_star and ver_mem_x are Bool-valued, hence total on all inputs;
ver_non_mem returns a boolean whenever the digest A is invertible modulo
n (true in every well-formed state), and ver_non_mem_star returns a
boolean whenever the caller-supplied v is invertible modulo n — but not
for arbitrary tuples. -/
theorem verifiers_return_bool (h : HashPrime) (st : RsaAccumulator)
    (w : Nat × Int) (x d v : Nat) (pid : Nat × Nat × Int) (pig : Nat)
    (hA : Nat.Coprime st.a_t st.n) (hv : Nat.gcd v st.n = 1) :
    (ver_non_mem st w x).isSome = true ∧
    (ver_non_mem_star h st x (d, v, pid, pig)).isSome = true := by
  constructor
  · have hm := modpow_uint_int_isSome st.a_t w.2 st.n hA
    unfold ver_non_mem
    cases hmm : modpow_uint_int st.a_t w.2 st.n with
    | none => rw [hmm] at hm; exact absurd hm (by simp)
    | some ab => simp
  · have hm := mod_inverse_isSome v st.n hv
    unfold ver_non_mem_star
    by_cases hp : ni_poke2_verify h st.g st.a_t v pid st.n
    · rw [if_pos hp]
      cases hmm : mod_inverse v st.n with
      | none => rw [hmm] at hm; exact absurd hm (by simp)
      | some vinv => simp
    · rw [if_neg hp]; rfl

/-- Witness for C4 (amended) at a concrete state and inputs. -/
theorem verifiers_return_bool_witness :
    Nat.Coprime 16 77 ∧ Nat.gcd 2 77 = 1 ∧
    (ver_non_mem ⟨4, 77, 16, 2⟩ (3, -1) 5).isSome = true ∧
    (ver_non_mem_star hc ⟨4, 77, 16, 2⟩ 5 (1, 2, (1, 1, 0), 1)).isSome = true :=
  ⟨by decide, by decide,
   (verifiers_return_bool hc ⟨4, 77, 16, 2⟩ (3, -1) 5 1 2 (1, 1, 0) 1
     (by decide) (by decide)).1,
   (verifiers_return_bool hc ⟨4, 77, 16, 2⟩ (3, -1) 5 1 2 (1, 1, 0) 1
     (by decide) (by decide)).2⟩

/-- C5 is refuted at a concrete reachable input: in the invariant state
(g = 23, n = 77, A = 1, s = 6) (reached by setup with modulus 77 and
quadratic-residue generator 23, then add(2), add(3)), deleting the member
2 succeeds, yet the witness issued before the deletion still verifies
against the new digest, because 23 ^ 6 and 23 ^ 3 agree modulo 77. -/
theorem stale_witness_still_verifies :
    add (add ⟨23, 77, 23, 1⟩ 2) 3 = ⟨23, 77, 1, 6⟩ ∧
    Invariant ⟨23, 77, 1, 6⟩ ∧
    Nat.Prime 2 ∧ (2 ∣ (6 : Nat)) ∧
    ver_mem ⟨23, 77, 1, 6⟩ (mem_wit_create ⟨23, 77, 1, 6⟩ 2) 2 = true ∧
    del ⟨23, 77, 1, 6⟩ 2 = some ⟨23, 77, 1, 3⟩ ∧
    ver_mem ⟨23, 77, 1, 3⟩ (mem_wit_create ⟨23, 77, 1, 6⟩ 2) 2 = true := by
  refine ⟨by decide, by decide, by decide, by decide, by decide, by decide,
    by decide⟩

/-- C5 (amended): in every invariant state, the witness for a member
 prime x verifies; del(x) then succeeds, and the stale witness verifies
against the new digest exactly when g ^ s and g ^ (s / x) agree modulo n
(so it is usually, but not always, rejected). -/
theorem mem_wit_round_trip (st : RsaAccumulator) (x : Nat)
    (hinv : Invariant st) (hx : Nat.Prime x) (hdvd : x ∣ st.s)
    (hs : 0 < st.s) :
    ver_mem st (mem_wit_create st x) x = true ∧
    ∃ st2, del st x = some st2 ∧
      (ver_mem st2 (mem_wit_create st x) x = true ↔
        st.g ^ st.s % st.n = st.g ^ (st.s / x) % st.n) := by
  have hxm : st.s / x * x = st.s := Nat.div_mul_cancel hdvd
  constructor
  · unfold ver_mem mem_wit_create
    rw [pow_mod_pow, hxm, ← hinv]
    exact beq_self_eq_true st.a_t
  · have hlt : st.s / x < st.s := Nat.div_lt_self hs hx.one_lt
    refine ⟨{ st with s := st.s / x, a_t := st.g ^ (st.s / x) % st.n }, ?_, ?_⟩
    · unfold del
      rw [if_neg (by omega)]
    · show ((st.g ^ (st.s / x) % st.n) ^ x % st.n == st.g ^ (st.s / x) % st.n) = true ↔
        st.g ^ st.s % st.n = st.g ^ (st.s / x) % st.n
      rw [pow_mod_pow, hxm]
      exact beq_iff_eq

/-- Witness for C5 (amended) at a concrete state where the stale witness
is indeed rejected. -/
theorem mem_wit_round_trip_witness :
    Invariant ⟨4, 77, 15, 6⟩ ∧ Nat.Prime 2 ∧ (2 ∣ (6 : Nat)) ∧ 0 < (6 : Nat) ∧
    (ver_mem ⟨4, 77, 15, 6⟩ (mem_wit_create ⟨4, 77, 15, 6⟩ 2) 2 = true ∧
      ∃ st2, del ⟨4, 77, 15, 6⟩ 2 = some st2 ∧
        (ver_mem st2 (mem_wit_create ⟨4, 77, 15, 6⟩ 2) 2 = true ↔
          (4 : Nat) ^ 6 % 77 = 4 ^ (6 / 2) % 77)) :=
  ⟨by decide, by decide, by decide, by decide,
   mem_wit_round_trip ⟨4, 77, 15, 6⟩ 2 (by decide) (by decide) (by decide)
     (by decide)⟩

/-- Nat casts below the modulus are injective into ZMod. -/
theorem natCast_zmod_inj (n a b : Nat) (hn : 0 < n) (ha : a < n) (hb : b < n)
    (h : (a : ZMod n) = (b : ZMod n)) : a = b := by
  haveI : NeZero n := ⟨by omega⟩
  have h2 := congrArg ZMod.val h
  rwa [ZMod.val_cast_of_lt ha, ZMod.val_cast_of_lt hb] at h2

/-- mod_inverse on an input coprime to the modulus returns a reduced
multiplicative inverse. -/
theorem mod_inverse_spec (a m : Nat) (hm : 1 < m) (h : Nat.gcd a m = 1) :
    ∃ r, mod_inverse a m = some r ∧ r < m ∧ (a : ZMod m) * (r : ZMod m) = 1 := by
  have hmz : ((m : Int)) ≠ 0 := by exact_mod_cast (by omega : m ≠ 0)
  have hmp : (0 : Int) < (m : Int) := by exact_mod_cast (by omega : 0 < m)
  have h1 : (0 : Int) ≤ (extended_gcd a m).2.1 % (m : Int) := Int.emod_nonneg _ hmz
  have h2 : (extended_gcd a m).2.1 % (m : Int) < (m : Int) := Int.emod_lt_of_pos _ hmp
  have hbez : (extended_gcd a m).2.1 * (a : Int) + (extended_gcd a m).2.2 * (m : Int)
      = 1 := by
    have h3 := extended_gcd_bezout a m
    rw [h] at h3
    exact_mod_cast h3
  refine ⟨((extended_gcd a m).2.1 % (m : Int)).toNat, ?_, by omega, ?_⟩
  · unfold mod_inverse
    rw [extended_gcd_fst, if_pos h]
  · have hc : ((((extended_gcd a m).2.1 % (m : Int)).toNat : Nat) : ZMod m)
        = (((extended_gcd a m).2.1 : Int) : ZMod m) := by
      calc ((((extended_gcd a m).2.1 % (m : Int)).toNat : Nat) : ZMod m)
          = (((((extended_gcd a m).2.1 % (m : Int)).toNat : Nat) : Int) : ZMod m) :=
            (Int.cast_natCast _).symm
        _ = ((((extended_gcd a m).2.1 % (m : Int)) : Int) : ZMod m) := by
            rw [Int.toNat_of_nonneg h1]
        _ = (((extended_gcd a m).2.1 : Int) : ZMod m) := ZMod.intCast_mod _ m
    have h3 : (((extended_gcd a m).2.1 * (a : Int)
        + (extended_gcd a m).2.2 * (m : Int) : Int) : ZMod m)
        = ((1 : Int) : ZMod m) := by rw [hbez]
    push_cast at h3
    rw [ZMod.natCast_self, mul_zero, add_zero] at h3
    rw [hc, mul_comm]
    exact h3

/-- Signed-exponent modular exponentiation of a base coprime to the
modulus: succeeds, returns a reduced value, and agrees with the integer
power of the corresponding unit of ZMod. -/
theorem modpow_uint_int_spec (base : Nat) (e : Int) (n : Nat) (hn : 1 < n)
    (h : Nat.Coprime base n) :
    ∃ r, modpow_uint_int base e n = some r ∧ r < n ∧
      (r : ZMod n) = ((ZMod.unitOfCoprime base h ^ e : (ZMod n)ˣ) : ZMod n) := by
  haveI : NeZero n := ⟨by omega⟩
  by_cases he : 0 ≤ e
  · refine ⟨base ^ e.toNat % n, ?_, Nat.mod_lt _ (by omega), ?_⟩
    · unfold modpow_uint_int
      rw [if_pos he]
    · rw [ZMod.natCast_mod, Nat.cast_pow, ← ZMod.coe_unitOfCoprime base h,
        ← Units.val_pow_eq_pow_val]
      congr 1
      rw [← zpow_natCast, Int.toNat_of_nonneg he]
  · have hc : Nat.gcd (base ^ e.natAbs % n) n = 1 := coprime_pow_mod base e.natAbs n h
    obtain ⟨r, hr, hrlt, hrmul⟩ := mod_inverse_spec (base ^ e.natAbs % n) n hn hc
    refine ⟨r, ?_, hrlt, ?_⟩
    · unfold modpow_uint_int
      rw [if_neg he]
      exact hr
    · have hbk : ((base ^ e.natAbs % n : Nat) : ZMod n)
          = ((ZMod.unitOfCoprime base h ^ e.natAbs : (ZMod n)ˣ) : ZMod n) := by
        rw [ZMod.natCast_mod, Nat.cast_pow, ← ZMod.coe_unitOfCoprime base h,
          ← Units.val_pow_eq_pow_val]
      rw [hbk] at hrmul
      have hz : (ZMod.unitOfCoprime base h ^ e : (ZMod n)ˣ)
          = (ZMod.unitOfCoprime base h ^ e.natAbs)⁻¹ := by
        rw [← zpow_natCast, ← zpow_neg]
        congr 1
        omega
      rw [hz]
      calc (r : ZMod n)
          = 1 * (r : ZMod n) := (one_mul _).symm
        _ = (((ZMod.unitOfCoprime base h ^ e.natAbs)⁻¹ : (ZMod n)ˣ) : ZMod n)
            * ((ZMod.unitOfCoprime base h ^ e.natAbs : (ZMod n)ˣ) : ZMod n)
            * (r : ZMod n) := by rw [Units.inv_mul]
        _ = (((ZMod.unitOfCoprime base h ^ e.natAbs)⁻¹ : (ZMod n)ˣ) : ZMod n)
            * (((ZMod.unitOfCoprime base h ^ e.natAbs : (ZMod n)ˣ) : ZMod n)
            * (r : ZMod n)) := by ring
        _ = (((ZMod.unitOfCoprime base h ^ e.natAbs)⁻¹ : (ZMod n)ˣ) : ZMod n) * 1 := by
            rw [hrmul]
        _ = (((ZMod.unitOfCoprime base h ^ e.natAbs)⁻¹ : (ZMod n)ˣ) : ZMod n) :=
            mul_one _

/-- C6: in every invariant state with the setup contract (modulus above
1, generator coprime to and below the modulus), for every y coprime to s
the created non-membership witness (d, b) verifies: d^y * A^b = g
(mod n). -/
theorem non_mem_round_trip (st : RsaAccumulator) (y : Nat)
    (hn : 1 < st.n) (hg : Nat.Coprime st.g st.n) (hglt : st.g < st.n)
    (hinv : Invariant st) (hcop : Nat.gcd y st.s = 1) :
    ∃ d b, non_mem_wit_create st y = some (d, b) ∧
      ver_non_mem st (d, b) y = some true := by
  haveI : NeZero st.n := ⟨by omega⟩
  have hbez : (extended_gcd y st.s).2.1 * (y : Int)
      + (extended_gcd y st.s).2.2 * (st.s : Int) = 1 := by
    have h3 := extended_gcd_bezout y st.s
    rw [hcop] at h3
    exact_mod_cast h3
  have hA : Nat.Coprime st.a_t st.n := by
    rw [hinv]
    exact Nat.coprime_iff_gcd_eq_one.mpr (coprime_pow_mod st.g st.s st.n hg)
  obtain ⟨d, hd, hdlt, hdz⟩ :=
    modpow_uint_int_spec st.g (extended_gcd y st.s).2.1 st.n hn hg
  obtain ⟨ab, hab, hablt, habz⟩ :=
    modpow_uint_int_spec st.a_t (extended_gcd y st.s).2.2 st.n hn hA
  have huA : ZMod.unitOfCoprime st.a_t hA = ZMod.unitOfCoprime st.g hg ^ st.s := by
    apply Units.ext
    rw [ZMod.coe_unitOfCoprime, hinv, ZMod.natCast_mod, Nat.cast_pow,
      ← ZMod.coe_unitOfCoprime st.g hg, ← Units.val_pow_eq_pow_val]
  refine ⟨d, (extended_gcd y st.s).2.2, ?_, ?_⟩
  · simp only [non_mem_wit_create, hd]
  · have key : ((d ^ y % st.n) * ab) % st.n = st.g := by
      apply natCast_zmod_inj st.n _ _ (by omega) (Nat.mod_lt _ (by omega)) hglt
      rw [ZMod.natCast_mod, Nat.cast_mul, ZMod.natCast_mod, Nat.cast_pow, hdz]
      rw [huA] at habz
      rw [habz, ← Units.val_pow_eq_pow_val, ← Units.val_mul,
        ← ZMod.coe_unitOfCoprime st.g hg]
      congr 1
      have e1 : ((ZMod.unitOfCoprime st.g hg ^ (extended_gcd y st.s).2.1
          : (ZMod st.n)ˣ)) ^ y
          = ZMod.unitOfCoprime st.g hg ^ ((extended_gcd y st.s).2.1 * (y : Int)) := by
        rw [← zpow_natCast (ZMod.unitOfCoprime st.g hg
          ^ (extended_gcd y st.s).2.1) y, ← zpow_mul]
      have e2 : ((ZMod.unitOfCoprime st.g hg ^ st.s : (ZMod st.n)ˣ))
          ^ (extended_gcd y st.s).2.2
          = ZMod.unitOfCoprime st.g hg
            ^ ((st.s : Int) * (extended_gcd y st.s).2.2) := by
        rw [← zpow_natCast (ZMod.unitOfCoprime st.g hg) st.s, ← zpow_mul]
      rw [e1, e2, ← zpow_add]
      have e3 : (extended_gcd y st.s).2.1 * (y : Int)
          + (st.s : Int) * (extended_gcd y st.s).2.2 = 1 := by
        rw [mul_comm ((st.s : Nat) : Int) ((extended_gcd y st.s).2.2)]
        exact hbez
      rw [e3, zpow_one]
    simp only [ver_non_mem, hab]
    rw [key]
    simp

/-- Witness for C6 at the concrete scenario of the spec (modulus 2881 =
43 * 67, generator 49, accumulated product 143 = 11 * 13, outsider 7). -/
theorem non_mem_round_trip_witness :
    Nat.gcd 7 143 = 1 ∧ Nat.Coprime 49 2881 ∧
    (∃ d b, non_mem_wit_create ⟨49, 2881, 49 ^ 143 % 2881, 143⟩ 7 = some (d, b) ∧
      ver_non_mem ⟨49, 2881, 49 ^ 143 % 2881, 143⟩ (d, b) 7 = some true) :=
  ⟨by decide, by decide,
   non_mem_round_trip ⟨49, 2881, 49 ^ 143 % 2881, 143⟩ 7 (by decide) (by decide)
     (by decide) rfl (by decide)⟩

/-- C10: add preserves the digest invariant for every input x, prime or
not, fresh or not: s is multiplied by x while A is raised to the x. -/
theorem add_preserves_invariant (st : RsaAccumulator) (x : Nat)
    (h : Invariant st) : Invariant (add st x) := by
  show (add st x).a_t = (add st x).g ^ (add st x).s % (add st x).n
  simp only [add]
  rw [h, pow_mod_pow]

/-- Witness for C10 at a concrete state. -/
theorem add_preserves_invariant_witness :
    Invariant ⟨4, 77, 16, 2⟩ ∧ Invariant (add ⟨4, 77, 16, 2⟩ 3) :=
  ⟨by decide, add_preserves_invariant ⟨4, 77, 16, 2⟩ 3 (by decide)⟩

end RsaAcc
